import Mathlib

/-!
Verification development for the http-server repository.

The embedding covers:
  * the configuration parser (package config, file with `Parse`, `parser.parse`,
    `parser.parseSettings`, `parser.readNakedString`, `parser.readQuotedString`,
    `parser.readWord`, `parser.skipSpace`, `parser.consume`),
  * the middleware chain builder (`chain` in middleware.go),
  * the resolution logic of `serverConfig.getHandler` in main.go.

Modelling conventions:
  * Go bytes are `Nat`; Go strings and `[]byte` values are `List Nat` (byte lists).
    `strBytes` converts an ASCII literal to its byte list.
  * The Go parser holds an immutable input buffer and a cursor `pos`; every read is
    `input[pos]` and the cursor only moves forward.  We therefore carry the state as
    the pair (remaining input, absolute position): `peek` is the head of the
    remaining list, `next` drops the head and increments the position, and a Go
    slice `input[start:pos]` is exactly the run of bytes consumed between the two
    states.  Error values record the same offsets the Go code formats.
  * Go `map[string]string` is an association list updated by `upsert`
    (last write wins, key order irrelevant); `map[string][]HandlerConfig` is an
    association list updated by `update` (append to the entry of the key).
  * The two `for` loops of the Go parser (`parser.parse` and the loop inside
    `parser.parseSettings`) are embedded with an explicit iteration budget
    (`fuel`): `none` means the budget was exhausted, i.e. the Go loop would still
    be running after that many iterations.  Every other construct is a total
    function, so a `some` result is exactly the result of the Go code.
-/

/-- Byte class of Go `unicode.IsSpace(rune(c))` restricted to single bytes
0..255: tab, newline, vertical tab, form feed, carriage return, space, U+0085,
U+00A0. Used by `readNakedString`. -/
def isGoSpaceByte (b : Nat) : Bool :=
  b == 9 || b == 10 || b == 11 || b == 12 || b == 13 || b == 32 || b == 133 || b == 160

/-- Byte class skipped by `parser.skipSpace`: `' '`, `'\n'`, `'\t'`. -/
def isSkipByte (b : Nat) : Bool :=
  b == 32 || b == 10 || b == 9

/-- A byte that `parser.readNakedString` keeps consuming: not a Go space byte and
none of `','` (44), `'}'` (125), `'{'` (123), `':'` (58). -/
def isNakedByte (b : Nat) : Bool :=
  !(isGoSpaceByte b || b == 44 || b == 125 || b == 123 || b == 58)

/-- Errors produced by the parser, one constructor per `fmt.Errorf` site in the
Go source, carrying the same data the Go format string interpolates. -/
inductive Err where
  /-- consume: "unexpected EOF. expected '%c'" -/
  | eofExpectedChar (expected : Nat)
  /-- consume: "unexpected '%c' at offset %d expected '%c'" -/
  | unexpectedExpected (got : Nat) (offset : Nat) (expected : Nat)
  /-- readQuotedString: "unexpected EOF. end of string not found" -/
  | eofStringEnd
  /-- readWord: "unexpected EOF. expected word" -/
  | eofExpectedWord
  /-- parseSettings: "failed to read key: %w" -/
  | failedKey (cause : Err)
  /-- parseSettings: "failed to read value: %w" -/
  | failedValue (cause : Err)
  /-- parseSettings: "expected ',' or '}' at offset %d, got '%c'" (emitted only
  when peek fails, i.e. at end of input; the Go byte `c` is 0 there) -/
  | expectedCommaOrBrace (offset : Nat) (got : Nat)
  /-- parseSettings: "unexpected '%c' at offset %d" -/
  | unexpectedAt (got : Nat) (offset : Nat)
  /-- parse: "missing ':' after path '%s' at %d" -/
  | missingColonAfterPath (path : List Nat) (offset : Nat)
deriving DecidableEq, Repr

/-- Go `map[string]string` for settings, as an association list. -/
abbrev SettingsMap := List (List Nat × List Nat)

/-- Go `config.HandlerConfig`: `Settings` is `none` for the Go nil map (no
settings block attached). -/
structure HandlerConfig where
  Name : List Nat
  Settings : Option SettingsMap
deriving DecidableEq, Repr

/-- Go `map[string][]HandlerConfig`, as an association list. -/
abbrev Table := List (List Nat × List HandlerConfig)

/-- Go map assignment `m[k] = v`: replace the value of an existing key,
otherwise add the binding. -/
def upsert : SettingsMap → List Nat → List Nat → SettingsMap
  | [], k, v => [(k, v)]
  | (k', v') :: rest, k, v =>
    if k' = k then (k, v) :: rest else (k', v') :: upsert rest k v

/-- Go `mappings[path] = append(mappings[path], cfg)`: append to the entry of an
existing key, otherwise add the key with a singleton list. -/
def update : Table → List Nat → HandlerConfig → Table
  | [], k, v => [(k, [v])]
  | (k', vs) :: rest, k, v =>
    if k' = k then (k, vs ++ [v]) :: rest else (k', vs) :: update rest k v

/-- Go `parser.skipSpace`: advance while the next byte is one of `' '`, `'\n'`,
`'\t'`. -/
def skipSpace : List Nat → Nat → List Nat × Nat
  | [], pos => ([], pos)
  | b :: rest, pos => if isSkipByte b then skipSpace rest (pos + 1) else (b :: rest, pos)

/-- Go `parser.consume`: error on end of input or on a byte other than the
expected one (the position does not move on failure). -/
def consume (expected : Nat) : List Nat → Nat → Except Err (List Nat × Nat)
  | [], _ => .error (.eofExpectedChar expected)
  | b :: rest, pos =>
    if b = expected then .ok (rest, pos + 1)
    else .error (.unexpectedExpected b (pos + 1) expected)

/-- Scan loop of Go `parser.readQuotedString`: consume until the closing `'"'`
(34), returning the bytes before it; end of input is an error. -/
def quotedScan : List Nat → Nat → Except Err (List Nat × List Nat × Nat)
  | [], _ => .error .eofStringEnd
  | b :: rest, pos =>
    if b = 34 then .ok ([], rest, pos + 1)
    else
      match quotedScan rest (pos + 1) with
      | .error e => .error e
      | .ok (content, r, p) => .ok (b :: content, r, p)

/-- Go `parser.readQuotedString`.  Note the Go code returns `"", nil` when the
initial `consume('"')` fails, discarding the error; the embedding reproduces
that. -/
def readQuotedString (rem : List Nat) (pos : Nat) : Except Err (List Nat × List Nat × Nat) :=
  match consume 34 rem pos with
  | .error _ => .ok ([], rem, pos)
  | .ok (r, p) => quotedScan r p

/-- Go `parser.readNakedString`: consume bytes until end of input, a Go space
byte, or one of `','`, `'}'`, `'{'`, `':'`.  Never fails and may return the
empty word without advancing. -/
def readNakedString : List Nat → Nat → List Nat × List Nat × Nat
  | [], pos => ([], [], pos)
  | b :: rest, pos =>
    if isNakedByte b then
      match readNakedString rest (pos + 1) with
      | (w, r, p) => (b :: w, r, p)
    else ([], b :: rest, pos)

/-- Go `parser.readWord`: end of input is an error; a leading `'"'` reads a
quoted string, anything else a naked string. -/
def readWord (rem : List Nat) (pos : Nat) : Except Err (List Nat × List Nat × Nat) :=
  match rem.head? with
  | none => .error .eofExpectedWord
  | some b => if b = 34 then readQuotedString rem pos else .ok (readNakedString rem pos)

/-- Outcome of one iteration of the loop in Go `parser.parseSettings`:
either the `'}'` branch returned the finished map, or the `','` branch
continues with the accumulated map. -/
inductive SettingsStep where
  | done (result : SettingsMap) (rem : List Nat) (pos : Nat)
  | more (rem : List Nat) (pos : Nat) (acc : SettingsMap)

/-- One iteration of the loop in Go `parser.parseSettings` (lines reading a key,
consuming `':'`, reading a value, then dispatching on `'}'` / `','`). -/
def settingsIter (rem : List Nat) (pos : Nat) (acc : SettingsMap) : Except Err SettingsStep :=
  match readWord rem pos with
  | .error e => .error (.failedKey e)
  | .ok (key, r1, p1) =>
    match consume 58 r1 p1 with
    | .error e => .error e
    | .ok (r2, p2) =>
      match skipSpace r2 p2 with
      | (r3, p3) =>
        match readWord r3 p3 with
        | .error e => .error (.failedValue e)
        | .ok (value, r4, p4) =>
          match skipSpace r4 p4 with
          | (r5, p5) =>
            match r5.head? with
            | none => .error (.expectedCommaOrBrace (p5 + 1) 0)
            | some c =>
              if c = 125 then .ok (.done (upsert acc key value) r5.tail (p5 + 1))
              else if c = 44 then
                match skipSpace r5.tail (p5 + 1) with
                | (r6, p6) => .ok (.more r6 p6 (upsert acc key value))
              else .error (.unexpectedAt c (p5 + 1))

/-- The loop of Go `parser.parseSettings`, with an iteration budget. -/
def settingsLoop : Nat → List Nat → Nat → SettingsMap → Option (Except Err (SettingsMap × List Nat × Nat))
  | 0, _, _, _ => none
  | fuel + 1, rem, pos, acc =>
    match settingsIter rem pos acc with
    | .error e => some (.error e)
    | .ok (.done m r p) => some (.ok (m, r, p))
    | .ok (.more r p a) => settingsLoop fuel r p a

/-- Go `parser.parseSettings`: consume `'{'`, skip space, then run the pair
loop starting from the empty map. -/
def parseSettings (fuel : Nat) (rem : List Nat) (pos : Nat) :
    Option (Except Err (SettingsMap × List Nat × Nat)) :=
  match consume 123 rem pos with
  | .error e => some (.error e)
  | .ok (r1, p1) =>
    match skipSpace r1 p1 with
    | (r2, p2) => settingsLoop fuel r2 p2 []

/-- Outcome of one iteration of the loop in Go `parser.parse`: the loop either
returns the finished table (`break` at end of input) or continues with an
updated state. -/
inductive ParseStep where
  | done (tbl : Table)
  | more (rem : List Nat) (pos : Nat) (tbl : Table) (cur : List Nat)

/-- One iteration of the loop in Go `parser.parse`: skip space, stop at end of
input, read a word; a word starting with `'/'` becomes the current path after a
mandatory `':'`; otherwise the word is a step, with a settings block attached
when the immediately following byte is `'{'`; the step is appended to the
current path and the loop stops if the peek before the settings check hit end
of input. -/
def parseIter (fuel : Nat) (rem : List Nat) (pos : Nat) (tbl : Table) (cur : List Nat) :
    Option (Except Err ParseStep) :=
  match skipSpace rem pos with
  | (r1, p1) =>
    match r1.head? with
    | none => some (.ok (.done tbl))
    | some _ =>
      match readWord r1 p1 with
      | .error e => some (.error e)
      | .ok (word, r2, p2) =>
        if word.head? = some 47 then
          match consume 58 r2 p2 with
          | .error _ => some (.error (.missingColonAfterPath word (p2 + 1)))
          | .ok (r3, p3) => some (.ok (.more r3 p3 tbl word))
        else if r2.head? = some 123 then
          match parseSettings fuel r2 p2 with
          | none => none
          | some (.error e) => some (.error e)
          | some (.ok (m, r3, p3)) =>
            some (.ok (.more r3 p3 (update tbl cur ⟨word, some m⟩) cur))
        else
          match r2.head? with
          | none => some (.ok (.done (update tbl cur ⟨word, none⟩)))
          | some _ => some (.ok (.more r2 p2 (update tbl cur ⟨word, none⟩) cur))

/-- The loop of Go `parser.parse`, with an iteration budget. -/
def parseLoop : Nat → List Nat → Nat → Table → List Nat → Option (Except Err Table)
  | 0, _, _, _, _ => none
  | fuel + 1, rem, pos, tbl, cur =>
    match parseIter fuel rem pos tbl cur with
    | none => none
    | some (.error e) => some (.error e)
    | some (.ok (.done t)) => some (.ok t)
    | some (.ok (.more r p t c)) => parseLoop fuel r p t c

/-- Go `config.Parse`: run the parse loop from position 0 with the empty table
and current path `"/"` (byte 47). `none` means the iteration budget ran out,
i.e. the Go loop was still running after `fuel` iterations. -/
def Parse (fuel : Nat) (input : List Nat) : Option (Except Err Table) :=
  parseLoop fuel input 0 [] [47]

/-- ASCII string literal to byte list. -/
def strBytes (s : String) : List Nat := s.toList.map Char.toNat

/-- The Go `Parse` terminates on `input` with result `r`: some iteration budget
suffices and every larger budget yields the same result. -/
def ParseOutcome (input : List Nat) (r : Except Err Table) : Prop :=
  ∃ N, ∀ fuel, N ≤ fuel → Parse fuel input = some r

/-!
Chain builder, from middleware.go.  A handler (`http.HandlerFunc`) is an
opaque type `H`; a middleware (`func(http.HandlerFunc) http.HandlerFunc`) is a
function `H → H`.
-/

/-- Go `chain` (middleware.go): returns the middleware that, given `h`, runs
`h = middlewares[len(middlewares)-1-i](h)` for `i = 0 .. len-1` and returns the
final `h`.  The loop is the left fold of that assignment over the index range;
`getD` with default `id` models the (always in-range) Go index access. -/
def chain {H : Type} (middlewares : List (H → H)) : H → H :=
  fun h =>
    (List.range middlewares.length).foldl
      (fun acc i => (middlewares.getD (middlewares.length - 1 - i) id) acc) h

/-!
Resolution logic of `serverConfig.getHandler` (main.go lines 52-84).  The
middleware registry and the handler registry are association lists with
`String` keys; the registered values (middlewares `H → H`, handlers `H`) are
opaque.
-/

/-- Errors of `serverConfig.getHandler`, one constructor per `fmt.Errorf`
site. -/
inductive ResolveErr where
  /-- "middleware '%s' does not exist" -/
  | middlewareNotFound (name : List Char)
  /-- "handler '%s' does not exist" -/
  | handlerNotFound (name : List Char)
deriving DecidableEq, Repr

/-- Go `strings.Split(s, ",")`: split at every `','`; the empty string yields
one empty part. -/
def splitComma : List Char → List (List Char)
  | [] => [[]]
  | c :: rest =>
    match splitComma rest with
    | [] => [[c]]
    | w :: ws => if c = ',' then [] :: w :: ws else (c :: w) :: ws

/-- The middleware resolution loop of `getHandler`: look every name up in the
middleware registry, in order, failing on the first name that is absent. -/
def resolveMiddlewares {H : Type} (registry : List (List Char × (H → H))) :
    List (List Char) → Except ResolveErr (List (H → H))
  | [] => .ok []
  | n :: rest =>
    match registry.lookup n with
    | none => .error (.middlewareNotFound n)
    | some m =>
      match resolveMiddlewares registry rest with
      | .error e => .error e
      | .ok ms => .ok (m :: ms)

/-- Go `serverConfig.getHandler`: the handler defaults to `okHandler`; an empty
`-middleware` flag yields the default chain `[dumpRequest]`, otherwise the
comma-separated names are resolved against the middleware registry; a nonempty
`-handler` flag is resolved against the handler registry; the result is
`chain(middlewareChain...)(handler)`. -/
def getHandler {H : Type} (middlewareReg : List (List Char × (H → H)))
    (handlerReg : List (List Char × H)) (okHandler : H) (dumpRequest : H → H)
    (middlewareFlag handlerFlag : List Char) : Except ResolveErr H :=
  match (if middlewareFlag = [] then Except.ok [dumpRequest]
         else resolveMiddlewares middlewareReg (splitComma middlewareFlag)) with
  | .error e => .error e
  | .ok mws =>
    match (if handlerFlag = [] then Except.ok okHandler
           else match handlerReg.lookup handlerFlag with
                | none => Except.error (ResolveErr.handlerNotFound handlerFlag)
                | some h => Except.ok h) with
    | .error e => .error e
    | .ok h => .ok (chain mws h)

/-!
Abstract syntax of configuration strings, used to state the round-trip
property (claim C4).  A word is rendered either bare or quoted; an item is a
path declaration or a step; each item carries the whitespace run that follows
it in the rendered string.
-/

/-- A word of the configuration DSL together with how it is written. -/
inductive ConfigWord where
  | bare (w : List Nat)
  | quoted (content : List Nat)
deriving DecidableEq, Repr

/-- The string value the parser extracts for the word. -/
def ConfigWord.val : ConfigWord → List Nat
  | .bare w => w
  | .quoted c => c

/-- The bytes the word occupies in the configuration text. -/
def ConfigWord.render : ConfigWord → List Nat
  | .bare w => w
  | .quoted c => 34 :: (c ++ [34])

/-- A renderable word: a bare word is a nonempty run of naked bytes not
starting with `'"'`; a quoted word has no `'"'` in its content. -/
def wordOK : ConfigWord → Bool
  | .bare w => !w.isEmpty && w.all isNakedByte && !(w.head? == some 34)
  | .quoted c => c.all (fun b => !(b == 34))

/-- A word usable as a step name: additionally its value must not start with
`'/'`, which the parser would treat as a path declaration. -/
def stepNameOK (n : ConfigWord) : Bool := wordOK n && !(n.val.head? == some 47)

/-- A path word: starts with `'/'` and consists of naked bytes. -/
def pathWordOK (w : List Nat) : Bool := (w.head? == some 47) && w.all isNakedByte

/-- A renderable settings pair. -/
def pairOK (p : ConfigWord × ConfigWord) : Bool := wordOK p.1 && wordOK p.2

/-- One item of a configuration: a path declaration or a step with optional
settings. -/
inductive ConfigItem where
  | path (w : List Nat)
  | step (name : ConfigWord) (settings : Option (List (ConfigWord × ConfigWord)))
deriving DecidableEq, Repr

/-- Validity of one item (settings blocks carry at least one pair). -/
def itemOK : ConfigItem → Bool
  | .path w => pathWordOK w
  | .step n s =>
    stepNameOK n &&
    (match s with
     | none => true
     | some ps => !ps.isEmpty && ps.all pairOK)

/-- A run of bytes that `skipSpace` skips (space, newline, tab). -/
def spRun (ws : List Nat) : Bool := ws.all isSkipByte

/-- Rendering of one settings pair: `key: value`. -/
def renderPair (p : ConfigWord × ConfigWord) : List Nat :=
  p.1.render ++ 58 :: 32 :: p.2.render

/-- Rendering of a pair sequence: `k: v, k: v, ...`. -/
def renderPairs : List (ConfigWord × ConfigWord) → List Nat
  | [] => []
  | [p] => renderPair p
  | p :: rest => renderPair p ++ 44 :: 32 :: renderPairs rest

/-- Rendering of one item: `path:` or `name` or `name{k: v, ...}`. -/
def renderItem : ConfigItem → List Nat
  | .path w => w ++ [58]
  | .step n s =>
    n.render ++
    (match s with
     | none => []
     | some ps => 123 :: (renderPairs ps ++ [125]))

/-- Rendering of a configuration: each item followed by its whitespace run. -/
def renderConfig : List (ConfigItem × List Nat) → List Nat
  | [] => []
  | (i, ws) :: rest => renderItem i ++ ws ++ renderConfig rest

/-- A separator is mandatory after a step without settings that is not the
last item (otherwise its word would run into the next item). -/
def needSep : ConfigItem → List (ConfigItem × List Nat) → Bool
  | .step _ none, _ :: _ => true
  | _, _ => false

/-- Validity of a configuration: every item valid, every separator a
space/newline/tab run, and a nonempty separator where one is mandatory. -/
def configOK : List (ConfigItem × List Nat) → Bool
  | [] => true
  | (i, ws) :: rest =>
    itemOK i && spRun ws && (!needSep i rest || !ws.isEmpty) && configOK rest

/-- The settings map the declared pairs denote (Go map writes, last wins). -/
def evalSettings (ps : List (ConfigWord × ConfigWord)) : SettingsMap :=
  ps.foldl (fun acc p => upsert acc p.1.val p.2.val) []

/-- The routing table a configuration denotes: steps are appended to the
current path in declaration order, path items reassign the current path. -/
def evalConfig : List (ConfigItem × List Nat) → List Nat → Table → Table
  | [], _, tbl => tbl
  | (.path w, _) :: rest, _, tbl => evalConfig rest w tbl
  | (.step n s, _) :: rest, cur, tbl =>
    evalConfig rest cur (update tbl cur ⟨n.val, s.map evalSettings⟩)

/-- Iteration budget sufficient to parse a rendered configuration: one parse
loop iteration per item plus the final end-of-input check, and one settings
loop iteration per pair. -/
def parseCost : List (ConfigItem × List Nat) → Nat
  | [] => 1
  | (.step _ (some ps), _) :: rest => 1 + ps.length + parseCost rest
  | _ :: rest => 1 + parseCost rest

/-!
Spec-modelled grammar, for claim C4 as stated.  Modelled from the spec: the
grammar of §4.1 under the reading the claim gives it, namely that "any
whitespace run between two tokens outside quoted strings is insignificant";
the tokens are words and the punctuation bytes `:`, `,`, `{`, `}`.
-/

/-- Modelled from the spec: an insignificant whitespace run between tokens. -/
def specWS (ws : List Nat) : Bool := ws.all isSkipByte

/-- Modelled from the spec: `word := quoted_string | bare_string`; a bare
string is a nonempty run of characters excluding whitespace, `','`, `'{'`,
`'}'`, `':'`; a quoted string is `'"' char* '"'` with no escape sequences. -/
inductive SpecWord : List Nat → Prop where
  | bare (w : List Nat) : w ≠ [] → (∀ b ∈ w, isNakedByte b = true) → SpecWord w
  | quoted (c : List Nat) : (∀ b ∈ c, b ≠ 34) → SpecWord (34 :: (c ++ [34]))

/-- Modelled from the spec: `pair := word ":" word` with insignificant
whitespace around the `':'` token. -/
inductive SpecPair : List Nat → Prop where
  | mk (k a b v : List Nat) : SpecWord k → specWS a = true → specWS b = true →
      SpecWord v → SpecPair (k ++ a ++ 58 :: (b ++ v))

/-- Modelled from the spec: `settings := pair ( "," pair )*` with insignificant
whitespace around the `','` tokens. -/
inductive SpecPairs : List Nat → Prop where
  | one (s : List Nat) : SpecPair s → SpecPairs s
  | cons (s a b t : List Nat) : SpecPair s → specWS a = true → specWS b = true →
      SpecPairs t → SpecPairs (s ++ a ++ 44 :: (b ++ t))

/-- Modelled from the spec: `item := path_decl | step` with
`path_decl := "/" pathchars ":"` and `step := word [ "{" settings "}" ]`,
insignificant whitespace between tokens. -/
inductive SpecItem : List Nat → Prop where
  | pathDecl (w a : List Nat) : (∀ b ∈ w, isNakedByte b = true) → specWS a = true →
      SpecItem (47 :: (w ++ a ++ [58]))
  | stepPlain (s : List Nat) : SpecWord s → SpecItem s
  | stepSettings (w a b ps c : List Nat) : SpecWord w → specWS a = true →
      specWS b = true → SpecPairs ps → specWS c = true →
      SpecItem (w ++ a ++ 123 :: (b ++ ps ++ c ++ [125]))

/-- Modelled from the spec: `config := item*` with insignificant whitespace
runs between items. -/
inductive SpecConfig : List Nat → Prop where
  | nil : SpecConfig []
  | lead (a t : List Nat) : specWS a = true → SpecConfig t → SpecConfig (a ++ t)
  | cons (i a t : List Nat) : SpecItem i → specWS a = true → SpecConfig t →
      SpecConfig (i ++ a ++ t)

/-- The next byte (if any) is not skipped by `skipSpace`. -/
def headNotSkip (l : List Nat) : Bool :=
  match l.head? with
  | none => true
  | some c => !isSkipByte c

/-- The next byte (if any) stops `readNakedString`. -/
def stopsNaked (l : List Nat) : Bool :=
  match l.head? with
  | none => true
  | some c => !isNakedByte c

/-- Decidable equality for `Except`, so that concrete parser runs can be
checked by `decide`. -/
instance {A B : Type} [DecidableEq A] [DecidableEq B] : DecidableEq (Except A B)
  | .error a, .error b =>
    if h : a = b then .isTrue (by rw [h]) else .isFalse (by simp [h])
  | .error _, .ok _ => .isFalse (by simp)
  | .ok _, .error _ => .isFalse (by simp)
  | .ok a, .ok b =>
    if h : a = b then .isTrue (by rw [h]) else .isFalse (by simp [h])

/-!
Theorems.  First the fuel infrastructure: a `some` result of the fueled loops
is stable under enlarging the iteration budget, so `ParseOutcome` is the
faithful notion of "the Go parse terminates with this result".
-/

theorem settingsLoop_mono : ∀ {f g : Nat}, f ≤ g →
    ∀ {rem : List Nat} {pos : Nat} {acc : SettingsMap} {r},
      settingsLoop f rem pos acc = some r → settingsLoop g rem pos acc = some r := by
  intro f
  induction f with
  | zero => intro g _ rem pos acc r h; simp [settingsLoop] at h
  | succ f ih =>
    intro g hfg rem pos acc r h
    obtain ⟨g', rfl⟩ : ∃ g', g = g' + 1 := ⟨g - 1, by omega⟩
    rw [settingsLoop] at h ⊢
    cases hit : settingsIter rem pos acc with
    | error e => rw [hit] at h; exact h
    | ok s =>
      cases s with
      | done m r2 p2 => rw [hit] at h; exact h
      | more r2 p2 a2 => rw [hit] at h; exact ih (by omega) h

theorem parseSettings_mono {f g : Nat} (hfg : f ≤ g) {rem : List Nat} {pos : Nat} {r}
    (h : parseSettings f rem pos = some r) : parseSettings g rem pos = some r := by
  unfold parseSettings at h ⊢
  cases hc : consume 123 rem pos with
  | error e => rw [hc] at h; exact h
  | ok s =>
    obtain ⟨r1, p1⟩ := s
    rw [hc] at h
    dsimp only at h
    try dsimp only
    rcases hs : skipSpace r1 p1 with ⟨r2, p2⟩
    rw [hs] at h
    dsimp only at h
    exact settingsLoop_mono hfg h

theorem parseIter_mono {f g : Nat} (hfg : f ≤ g) {rem : List Nat} {pos : Nat}
    {tbl : Table} {cur : List Nat} {r}
    (h : parseIter f rem pos tbl cur = some r) : parseIter g rem pos tbl cur = some r := by
  unfold parseIter at h ⊢
  rcases hss : skipSpace rem pos with ⟨r1, p1⟩
  rw [hss] at h
  dsimp only at h ⊢
  cases hh : r1.head? with
  | none => rw [hh] at h
            exact h
  | some b =>
    rw [hh] at h
    cases hw : readWord r1 p1 with
    | error e => rw [hw] at h; exact h
    | ok s =>
      obtain ⟨word, r2, p2⟩ := s
      rw [hw] at h
      dsimp only at h
      try dsimp only
      by_cases hpath : word.head? = some 47
      · rw [if_pos hpath] at h ⊢
        cases hc : consume 58 r2 p2 with
        | error e => rw [hc] at h; exact h
        | ok s2 => obtain ⟨r3, p3⟩ := s2; rw [hc] at h; exact h
      · rw [if_neg hpath] at h ⊢
        by_cases hb : r2.head? = some 123
        · rw [if_pos hb] at h ⊢
          cases hps : parseSettings f r2 p2 with
          | none => rw [hps] at h; exact absurd h (by simp)
          | some x =>
            rw [hps] at h
            rw [parseSettings_mono hfg hps]
            cases x with
            | error e => exact h
            | ok y => obtain ⟨m, r3, p3⟩ := y; exact h
        · rw [if_neg hb] at h ⊢
          cases hh2 : r2.head? with
          | none => rw [hh2] at h; exact h
          | some c => rw [hh2] at h; exact h

theorem parseLoop_mono : ∀ {f g : Nat}, f ≤ g →
    ∀ {rem : List Nat} {pos : Nat} {tbl : Table} {cur : List Nat} {r},
      parseLoop f rem pos tbl cur = some r → parseLoop g rem pos tbl cur = some r := by
  intro f
  induction f with
  | zero => intro g _ rem pos tbl cur r h; simp [parseLoop] at h
  | succ f ih =>
    intro g hfg rem pos tbl cur r h
    obtain ⟨g', rfl⟩ : ∃ g', g = g' + 1 := ⟨g - 1, by omega⟩
    rw [parseLoop] at h ⊢
    cases hit : parseIter f rem pos tbl cur with
    | none => rw [hit] at h; exact absurd h (by simp)
    | some x =>
      rw [hit] at h
      rw [parseIter_mono (show f ≤ g' by omega) hit]
      cases x with
      | error e => exact h
      | ok s =>
        cases s with
        | done t => exact h
        | more r2 p2 t2 c2 => exact ih (by omega) h

theorem ParseOutcome_of {input : List Nat} {r : Except Err Table} (N : Nat)
    (h : Parse N input = some r) : ParseOutcome input r :=
  ⟨N, fun _ hf => parseLoop_mono hf h⟩

/-!
Non-termination of the parse loop on a lone `':'`: `readNakedString` stops at
the `':'` without consuming it and without an error, so `parse` appends a step
with empty name and loops with an unchanged cursor.
-/

theorem parseIter_colon (f pos : Nat) (tbl : Table) (cur : List Nat) :
    parseIter f [58] pos tbl cur =
      some (.ok (.more [58] pos (update tbl cur ⟨[], none⟩) cur)) := by
  simp [parseIter, skipSpace, isSkipByte, readWord, readNakedString, isNakedByte,
    isGoSpaceByte]

theorem parseLoop_colon : ∀ (fuel pos : Nat) (tbl : Table) (cur : List Nat),
    parseLoop fuel [58] pos tbl cur = none := by
  intro fuel
  induction fuel with
  | zero => intro pos tbl cur; rfl
  | succ f ih =>
    intro pos tbl cur
    rw [parseLoop, parseIter_colon]
    exact ih pos (update tbl cur ⟨[], none⟩) cur

/-- C2: the claim states that Parse is total — for every finite input it
terminates with a routing table or a descriptive syntax error.  The code is
not: on the one-byte input ":" the parse loop never terminates (no iteration
budget whatsoever yields a result), because `readNakedString` returns an empty
word at the unconsumed `':'` and the loop repeats with an unchanged cursor. -/
theorem c2_parse_not_total_on_colon : ∀ fuel : Nat, Parse fuel (strBytes ":") = none := by
  intro fuel
  have h58 : strBytes ":" = [58] := by decide
  show parseLoop fuel (strBytes ":") 0 [] [47] = none
  rw [h58]
  exact parseLoop_colon fuel 0 [] [47]

/-- C3: the claim states that `':'`, `','` or `'}'` at a position where a word
start is expected always produces a syntax error identifying the offending
byte and its 1-based offset.  The code does not: on input ":" (a `':'` where
the parse loop expects a word) the parser loops forever instead of returning
any error, and on input "x{: y}" (a `':'` where a settings key is expected) it
silently succeeds with an empty key instead of erroring. -/
theorem c3_control_byte_at_word_start :
    (∀ fuel : Nat, Parse fuel (strBytes ":") = none) ∧
    ParseOutcome (strBytes "x\x7b: y\x7d")
      (.ok [(strBytes "/", [⟨strBytes "x", some [([], strBytes "y")]⟩])]) := by
  constructor
  · intro fuel
    have h58 : strBytes ":" = [58] := by decide
    show parseLoop fuel (strBytes ":") 0 [] [47] = none
    rw [h58]
    exact parseLoop_colon fuel 0 [] [47]
  · exact ParseOutcome_of 20 (by decide)

/-- C9: a settings block at a position where a step name is expected is
accepted: Parse "{foo: bar}" succeeds with the single step of empty name and
settings {"foo": "bar"} registered under the initial path "/". -/
theorem c9_settings_block_without_name :
    ParseOutcome (strBytes "\x7bfoo: bar\x7d")
      (.ok [(strBytes "/", [⟨[], some [(strBytes "foo", strBytes "bar")]⟩])]) :=
  ParseOutcome_of 20 (by decide)

/-- C10: declaring the same path twice appends to one step sequence in overall
declaration order: Parse "/a: x /b: y /a: z" maps "/a" to the steps "x" then
"z" and "/b" to "y". -/
theorem c10_repeated_path_declaration_appends :
    ParseOutcome (strBytes "/a: x /b: y /a: z")
      (.ok [(strBytes "/a", [⟨strBytes "x", none⟩, ⟨strBytes "z", none⟩]),
            (strBytes "/b", [⟨strBytes "y", none⟩])]) :=
  ParseOutcome_of 20 (by decide)

/-!
Claim C1: the chain builder composes middlewares in declaration order.
-/

/-- C1: `chain(m0, ..., mk-1)(h)` is the nested composition
`m0 (m1 (... (mk-1 h) ...))`, i.e. the right fold of application over the
middleware list: the outermost wrapper is `m0`, so at runtime its logic runs
first, then `m1`, ..., then `h`, and each middleware receives the handler it
wraps as a plain function value, deciding alone whether and when to invoke
it. -/
theorem c1_chain_is_nested_composition {H : Type} (ms : List (H → H)) (h : H) :
    chain ms h = ms.foldr (fun m acc => m acc) h := by
  induction ms generalizing h with
  | nil => rfl
  | cons m t ih =>
    have key : chain (m :: t) h = m (chain t h) := by
      show (List.range (m :: t).length).foldl
          (fun acc i => ((m :: t).getD ((m :: t).length - 1 - i) id) acc) h = m (chain t h)
      rw [List.length_cons, List.range_succ, List.foldl_append]
      have hext : (List.range t.length).foldl
          (fun acc i => ((m :: t).getD (t.length + 1 - 1 - i) id) acc) h
          = (List.range t.length).foldl
            (fun acc i => (t.getD (t.length - 1 - i) id) acc) h := by
        refine List.foldl_ext _ _ h ?_
        intro a i hi
        have hlt : i < t.length := List.mem_range.mp hi
        have h1 : t.length + 1 - 1 - i = (t.length - 1 - i) + 1 := by omega
        rw [h1]
        simp [List.getD]
      have h0 : t.length + 1 - 1 - t.length = 0 := by omega
      simp only [List.foldl_cons, List.foldl_nil]
      rw [h0, hext]
      simp [List.getD, chain]
    rw [key, ih, List.foldr_cons]

/-!
Claims about error propagation in the parser (C6) need that the remaining
input shrinks along the reading primitives: every byte of a later state was a
byte of the earlier state.
-/

theorem consume_ok {e : Nat} {rem : List Nat} {pos : Nat} {r1 : List Nat} {p1 : Nat}
    (h : consume e rem pos = .ok (r1, p1)) : rem = e :: r1 ∧ p1 = pos + 1 := by
  cases rem with
  | nil => simp [consume] at h
  | cons b t =>
    rw [consume] at h
    by_cases hb : b = e
    · rw [if_pos hb] at h
      simp only [Except.ok.injEq, Prod.mk.injEq] at h
      exact ⟨by rw [hb, h.1], h.2.symm⟩
    · rw [if_neg hb] at h
      simp at h

theorem skipSpace_mem : ∀ (rem : List Nat) (pos b : Nat), b ∈ (skipSpace rem pos).1 → b ∈ rem := by
  intro rem
  induction rem with
  | nil => intro pos b h; simpa [skipSpace] using h
  | cons c t ih =>
    intro pos b h
    rw [skipSpace] at h
    by_cases hc : isSkipByte c
    · rw [if_pos hc] at h
      exact List.mem_cons_of_mem c (ih (pos + 1) b h)
    · rw [if_neg hc] at h
      exact h

theorem readNakedString_mem : ∀ (rem : List Nat) (pos b : Nat),
    b ∈ (readNakedString rem pos).2.1 → b ∈ rem := by
  intro rem
  induction rem with
  | nil => intro pos b h; simpa [readNakedString] using h
  | cons c t ih =>
    intro pos b h
    rw [readNakedString] at h
    by_cases hc : isNakedByte c
    · rw [if_pos hc] at h
      rcases hr : readNakedString t (pos + 1) with ⟨w, r, p⟩
      rw [hr] at h
      have h2 := ih (pos + 1) b
      rw [hr] at h2
      exact List.mem_cons_of_mem c (h2 h)
    · rw [if_neg hc] at h
      exact h

theorem quotedScan_mem : ∀ (rem : List Nat) (pos : Nat) {c r : List Nat} {p : Nat},
    quotedScan rem pos = .ok (c, r, p) → ∀ {b : Nat}, b ∈ r → b ∈ rem := by
  intro rem
  induction rem with
  | nil => intro pos c r p h; simp [quotedScan] at h
  | cons x t ih =>
    intro pos c r p h b hb
    rw [quotedScan] at h
    by_cases hx : x = 34
    · rw [if_pos hx] at h
      simp only [Except.ok.injEq, Prod.mk.injEq] at h
      obtain ⟨-, h2, -⟩ := h
      subst h2
      exact List.mem_cons_of_mem x hb
    · rw [if_neg hx] at h
      cases hq : quotedScan t (pos + 1) with
      | error e => rw [hq] at h; exact absurd h (by simp)
      | ok y =>
        obtain ⟨c2, r2, p2⟩ := y
        rw [hq] at h
        dsimp only at h
        simp only [Except.ok.injEq, Prod.mk.injEq] at h
        obtain ⟨-, h2, -⟩ := h
        subst h2
        exact List.mem_cons_of_mem x (ih (pos + 1) hq hb)

theorem readQuotedString_mem {rem : List Nat} {pos : Nat} {w r : List Nat} {p : Nat}
    (h : readQuotedString rem pos = .ok (w, r, p)) : ∀ {b : Nat}, b ∈ r → b ∈ rem := by
  unfold readQuotedString at h
  cases hc : consume 34 rem pos with
  | error e =>
    rw [hc] at h
    simp only [Except.ok.injEq, Prod.mk.injEq] at h
    obtain ⟨-, h2, -⟩ := h
    intro b hb
    rw [h2]
    exact hb
  | ok y =>
    obtain ⟨r1, p1⟩ := y
    rw [hc] at h
    dsimp only at h
    obtain ⟨hrem, -⟩ := consume_ok hc
    intro b hb
    rw [hrem]
    exact List.mem_cons_of_mem 34 (quotedScan_mem r1 p1 h hb)

theorem readWord_mem {rem : List Nat} {pos : Nat} {w r : List Nat} {p : Nat}
    (h : readWord rem pos = .ok (w, r, p)) : ∀ {b : Nat}, b ∈ r → b ∈ rem := by
  intro b hb
  unfold readWord at h
  cases hh : rem.head? with
  | none => rw [hh] at h; exact absurd h (by simp)
  | some c =>
    rw [hh] at h
    dsimp only at h
    by_cases hc : c = 34
    · rw [if_pos hc] at h
      exact readQuotedString_mem h hb
    · rw [if_neg hc] at h
      simp only [Except.ok.injEq] at h
      have h2 := readNakedString_mem rem pos b
      rw [h] at h2
      exact h2 hb

theorem settingsIter_src_mem {rem : List Nat} {pos : Nat} {acc : SettingsMap} {st : SettingsStep}
    (h : settingsIter rem pos acc = .ok st) :
    (∀ m r2 p2, st = .done m r2 p2 → 125 ∈ rem) ∧
    (∀ r2 p2 a2, st = .more r2 p2 a2 → ∀ b ∈ r2, b ∈ rem) := by
  unfold settingsIter at h
  cases hw : readWord rem pos with
  | error e => rw [hw] at h; exact absurd h (by simp)
  | ok y =>
    obtain ⟨key, r1, p1⟩ := y
    rw [hw] at h
    dsimp only at h
    cases hc : consume 58 r1 p1 with
    | error e => rw [hc] at h; exact absurd h (by simp)
    | ok y2 =>
      obtain ⟨r2, p2⟩ := y2
      rw [hc] at h
      dsimp only at h
      rcases hs : skipSpace r2 p2 with ⟨r3, p3⟩
      rw [hs] at h
      dsimp only at h
      cases hw2 : readWord r3 p3 with
      | error e => rw [hw2] at h; exact absurd h (by simp)
      | ok y3 =>
        obtain ⟨value, r4, p4⟩ := y3
        rw [hw2] at h
        dsimp only at h
        rcases hs2 : skipSpace r4 p4 with ⟨r5, p5⟩
        rw [hs2] at h
        dsimp only at h
        cases hh : r5.head? with
        | none => rw [hh] at h; exact absurd h (by simp)
        | some c =>
          rw [hh] at h
          dsimp only at h
          have chain5 : ∀ b : Nat, b ∈ r5 → b ∈ rem := by
            intro b hb
            have m4 : b ∈ r4 := by
              have hsk := skipSpace_mem r4 p4 b
              rw [hs2] at hsk
              exact hsk hb
            have m3 : b ∈ r3 := readWord_mem hw2 m4
            have m2 : b ∈ r2 := by
              have hsk := skipSpace_mem r2 p2 b
              rw [hs] at hsk
              exact hsk m3
            have m1 : b ∈ r1 := by
              obtain ⟨h58, -⟩ := consume_ok hc
              rw [h58]
              exact List.mem_cons_of_mem 58 m2
            exact readWord_mem hw m1
          by_cases h125 : c = 125
          · rw [if_pos h125] at h
            simp only [Except.ok.injEq] at h
            constructor
            · intro m rr pp _
              have hc125 : (125 : Nat) ∈ r5 := by
                have hhead : r5.head? = some 125 := by rw [hh, h125]
                cases r5 with
                | nil => simp at hhead
                | cons a t =>
                  simp only [List.head?_cons, Option.some.injEq] at hhead
                  rw [← hhead]
                  exact List.mem_cons_self a t
              exact chain5 125 hc125
            · intro rr pp aa hst
              exact absurd (h.trans hst) (by simp)
          · rw [if_neg h125] at h
            by_cases h44 : c = 44
            · rw [if_pos h44] at h
              rcases hs3 : skipSpace r5.tail (p5 + 1) with ⟨r6, p6⟩
              rw [hs3] at h
              dsimp only at h
              simp only [Except.ok.injEq] at h
              constructor
              · intro m rr pp hst
                exact absurd (h.trans hst) (by simp)
              · intro rr pp aa hst
                have h2 := h.trans hst
                simp only [SettingsStep.more.injEq] at h2
                obtain ⟨h6, -, -⟩ := h2
                intro b hb
                have hb6 : b ∈ r6 := by rw [h6]; exact hb
                have hb5t : b ∈ r5.tail := by
                  have hsk := skipSpace_mem r5.tail (p5 + 1) b
                  rw [hs3] at hsk
                  exact hsk hb6
                exact chain5 b (List.mem_of_mem_tail hb5t)
            · rw [if_neg h44] at h
              exact absurd h (by simp)

theorem settingsLoop_close : ∀ (fuel : Nat) (rem : List Nat) (pos : Nat) (acc : SettingsMap)
    (x : SettingsMap × List Nat × Nat),
    settingsLoop fuel rem pos acc = some (.ok x) → 125 ∈ rem := by
  intro fuel
  induction fuel with
  | zero => intro rem pos acc x h; simp [settingsLoop] at h
  | succ f ih =>
    intro rem pos acc x h
    rw [settingsLoop] at h
    cases hit : settingsIter rem pos acc with
    | error e => rw [hit] at h; exact absurd h (by simp)
    | ok st =>
      rw [hit] at h
      cases st with
      | done m r p => exact (settingsIter_src_mem hit).1 m r p rfl
      | more r p a =>
        exact (settingsIter_src_mem hit).2 r p a rfl 125 (ih r p a x h)

/-- C6: a settings block can only parse successfully if a closing `'}'` is
still present in the remaining input, so an input that ends inside an open
settings block never yields a (truncated) settings map; concretely,
"static{foo: bar" fails with the error of the end-of-input branch of
`parseSettings`, whose reported offset (length of the input plus one) points
past the last byte, and no routing table is returned; likewise end of input
inside a quoted string is a syntax error. -/
theorem c6_eof_in_settings_or_string :
    (∀ (fuel : Nat) (rem : List Nat) (pos : Nat) (x : SettingsMap × List Nat × Nat),
        parseSettings fuel rem pos = some (.ok x) → 125 ∈ rem) ∧
    ParseOutcome (strBytes "static\x7bfoo: bar")
      (.error (.expectedCommaOrBrace ((strBytes "static\x7bfoo: bar").length + 1) 0)) ∧
    ParseOutcome (strBytes "x\x7ba: \"bc") (.error (.failedValue .eofStringEnd)) := by
  refine ⟨?_, ParseOutcome_of 20 (by decide), ParseOutcome_of 20 (by decide)⟩
  intro fuel rem pos x h
  unfold parseSettings at h
  cases hc : consume 123 rem pos with
  | error e => rw [hc] at h; exact absurd h (by simp)
  | ok y =>
    obtain ⟨r1, p1⟩ := y
    rw [hc] at h
    dsimp only at h
    rcases hs : skipSpace r1 p1 with ⟨r2, p2⟩
    rw [hs] at h
    dsimp only at h
    obtain ⟨h123, -⟩ := consume_ok hc
    rw [h123]
    refine List.mem_cons_of_mem 123 ?_
    have hmem : (125 : Nat) ∈ r2 := settingsLoop_close fuel r2 p2 [] x h
    have hsk := skipSpace_mem r1 p1 125
    rw [hs] at hsk
    exact hsk hmem

/-- Witness for C6: the universal part applied to the parseable settings
fragment "{a: b}". -/
theorem c6_witness : (125 : Nat) ∈ strBytes "\x7ba: b\x7d" :=
  c6_eof_in_settings_or_string.1 5 (strBytes "\x7ba: b\x7d") 0
    ([(strBytes "a", strBytes "b")], [], 6) (by decide)

/-!
Claim C7: every stored path maps to a nonempty step sequence.  The only table
mutation the parse loop performs is `update`, which appends one step, so the
invariant is preserved from the empty starting table.
-/

theorem update_nonempty : ∀ (tbl : Table) (k : List Nat) (v : HandlerConfig),
    (∀ e ∈ tbl, e.2 ≠ []) → ∀ e ∈ update tbl k v, e.2 ≠ [] := by
  intro tbl
  induction tbl with
  | nil =>
    intro k v _ e he
    rw [update] at he
    simp only [List.mem_singleton] at he
    rw [he]
    simp
  | cons hd t ih =>
    obtain ⟨k2, vs⟩ := hd
    intro k v h e he
    rw [update] at he
    by_cases hk : k2 = k
    · rw [if_pos hk] at he
      rcases List.mem_cons.mp he with h1 | h2
      · rw [h1]; simp
      · exact h e (List.mem_cons_of_mem _ h2)
    · rw [if_neg hk] at he
      rcases List.mem_cons.mp he with h1 | h2
      · rw [h1]
        exact h (k2, vs) (List.mem_cons_self _ _)
      · exact ih k v (fun e2 he2 => h e2 (List.mem_cons_of_mem _ he2)) e h2

theorem parseIter_inv {f : Nat} {rem : List Nat} {pos : Nat} {tbl : Table} {cur : List Nat}
    {st : ParseStep} (h : parseIter f rem pos tbl cur = some (.ok st))
    (hinv : ∀ e ∈ tbl, e.2 ≠ []) :
    (∀ t, st = .done t → ∀ e ∈ t, e.2 ≠ []) ∧
    (∀ r p t c, st = .more r p t c → ∀ e ∈ t, e.2 ≠ []) := by
  unfold parseIter at h
  rcases hss : skipSpace rem pos with ⟨r1, p1⟩
  rw [hss] at h
  dsimp only at h
  cases hh : r1.head? with
  | none =>
    rw [hh] at h
    simp only [Option.some.injEq, Except.ok.injEq] at h
    constructor
    · intro t hst
      have h2 := h.trans hst
      simp only [ParseStep.done.injEq] at h2
      rw [← h2]
      exact hinv
    · intro r p t c hst
      exact absurd (h.trans hst) (by simp)
  | some b =>
    rw [hh] at h
    cases hw : readWord r1 p1 with
    | error e => rw [hw] at h; exact absurd h (by simp)
    | ok y =>
      obtain ⟨word, r2, p2⟩ := y
      rw [hw] at h
      dsimp only at h
      by_cases hpath : word.head? = some 47
      · rw [if_pos hpath] at h
        cases hc : consume 58 r2 p2 with
        | error e => rw [hc] at h; exact absurd h (by simp)
        | ok y2 =>
          obtain ⟨r3, p3⟩ := y2
          rw [hc] at h
          dsimp only at h
          simp only [Option.some.injEq, Except.ok.injEq] at h
          constructor
          · intro t hst
            exact absurd (h.trans hst) (by simp)
          · intro r p t c hst
            have h2 := h.trans hst
            simp only [ParseStep.more.injEq] at h2
            obtain ⟨-, -, ht, -⟩ := h2
            rw [← ht]
            exact hinv
      · rw [if_neg hpath] at h
        by_cases hb : r2.head? = some 123
        · rw [if_pos hb] at h
          cases hps : parseSettings f r2 p2 with
          | none => rw [hps] at h; exact absurd h (by simp)
          | some z =>
            rw [hps] at h
            cases z with
            | error e => exact absurd h (by simp)
            | ok y3 =>
              obtain ⟨m, r3, p3⟩ := y3
              dsimp only at h
              simp only [Option.some.injEq, Except.ok.injEq] at h
              constructor
              · intro t hst
                exact absurd (h.trans hst) (by simp)
              · intro r p t c hst
                have h2 := h.trans hst
                simp only [ParseStep.more.injEq] at h2
                obtain ⟨-, -, ht, -⟩ := h2
                rw [← ht]
                exact update_nonempty tbl cur _ hinv
        · rw [if_neg hb] at h
          cases hh2 : r2.head? with
          | none =>
            rw [hh2] at h
            simp only [Option.some.injEq, Except.ok.injEq] at h
            constructor
            · intro t hst
              have h2 := h.trans hst
              simp only [ParseStep.done.injEq] at h2
              rw [← h2]
              exact update_nonempty tbl cur _ hinv
            · intro r p t c hst
              exact absurd (h.trans hst) (by simp)
          | some c2 =>
            rw [hh2] at h
            simp only [Option.some.injEq, Except.ok.injEq] at h
            constructor
            · intro t hst
              exact absurd (h.trans hst) (by simp)
            · intro r p t c hst
              have h2 := h.trans hst
              simp only [ParseStep.more.injEq] at h2
              obtain ⟨-, -, ht, -⟩ := h2
              rw [← ht]
              exact update_nonempty tbl cur _ hinv

theorem parseLoop_inv : ∀ (fuel : Nat) (rem : List Nat) (pos : Nat) (tbl : Table)
    (cur : List Nat) (t : Table), parseLoop fuel rem pos tbl cur = some (.ok t) →
    (∀ e ∈ tbl, e.2 ≠ []) → ∀ e ∈ t, e.2 ≠ [] := by
  intro fuel
  induction fuel with
  | zero => intro rem pos tbl cur t h _; simp [parseLoop] at h
  | succ f ih =>
    intro rem pos tbl cur t h hinv
    rw [parseLoop] at h
    cases hit : parseIter f rem pos tbl cur with
    | none => rw [hit] at h; exact absurd h (by simp)
    | some z =>
      rw [hit] at h
      cases z with
      | error e => exact absurd h (by simp)
      | ok st =>
        cases st with
        | done t2 =>
          have h2 : t2 = t := by simpa using h
          rw [← h2]
          exact (parseIter_inv hit hinv).1 t2 rfl
        | more r p t2 c =>
          exact ih r p t2 c t h ((parseIter_inv hit hinv).2 r p t2 c rfl)

/-- C7: in every routing table returned successfully by Parse, every stored
path key maps to a nonempty step sequence; in particular a path that never
receives a step is never present as a key. -/
theorem c7_stored_paths_have_steps : ∀ (fuel : Nat) (input : List Nat) (tbl : Table),
    Parse fuel input = some (.ok tbl) → ∀ e ∈ tbl, e.2 ≠ [] := by
  intro fuel input tbl h
  exact parseLoop_inv fuel input 0 [] [47] tbl h (by simp)

/-- Witness for C7: the invariant instantiated at the parse of "x". -/
theorem c7_witness :
    ((strBytes "/", [({ Name := strBytes "x", Settings := none } : HandlerConfig)]) :
      List Nat × List HandlerConfig).2 ≠ [] :=
  c7_stored_paths_have_steps 5 (strBytes "x")
    [(strBytes "/", [{ Name := strBytes "x", Settings := none }])] (by decide)
    (strBytes "/", [{ Name := strBytes "x", Settings := none }]) (by decide)

/-!
Claim C8: resolution failures in `getHandler`.
-/

theorem resolveMiddlewares_missing {H : Type} (reg : List (List Char × (H → H))) :
    ∀ (names : List (List Char)) (m : List Char),
      names.find? (fun n => (reg.lookup n).isNone) = some m →
      resolveMiddlewares reg names = .error (.middlewareNotFound m) := by
  intro names
  induction names with
  | nil => intro m h; simp at h
  | cons n t ih =>
    intro m h
    cases hl : reg.lookup n with
    | none =>
      simp only [List.find?, hl, Option.isNone_none] at h
      have hnm : n = m := by simpa using h
      subst hnm
      simp [resolveMiddlewares, hl]
    | some mw =>
      simp only [List.find?, hl, Option.isNone_some] at h
      simp [resolveMiddlewares, hl, ih m h]

theorem resolveMiddlewares_ok {H : Type} (reg : List (List Char × (H → H))) :
    ∀ names : List (List Char), (∀ n ∈ names, (reg.lookup n).isSome = true) →
      ∃ ms, resolveMiddlewares reg names = .ok ms := by
  intro names
  induction names with
  | nil => intro _; exact ⟨[], rfl⟩
  | cons n t ih =>
    intro h
    have h1 : (reg.lookup n).isSome = true := h n (List.mem_cons_self n t)
    cases hl : reg.lookup n with
    | none => rw [hl] at h1; simp at h1
    | some mw =>
      obtain ⟨ms, hms⟩ := ih (fun x hx => h x (List.mem_cons_of_mem n hx))
      exact ⟨mw :: ms, by simp [resolveMiddlewares, hl, hms]⟩

/-- C8: if some name of the comma-separated middleware list is absent from
the middleware registry, `getHandler` fails with the error naming the first
such middleware; if the middlewares resolve (or the default chain is used)
and the requested terminal handler name is absent from the handler registry,
`getHandler` fails with the error naming that handler; in either case the
result is an error, so no composed handler is produced. -/
theorem c8_unknown_names_fail {H : Type} (middlewareReg : List (List Char × (H → H)))
    (handlerReg : List (List Char × H)) (okH : H) (dumpReq : H → H)
    (mwFlag hFlag : List Char) :
    (∀ m : List Char, mwFlag ≠ [] →
        (splitComma mwFlag).find? (fun n => (middlewareReg.lookup n).isNone) = some m →
        getHandler middlewareReg handlerReg okH dumpReq mwFlag hFlag =
          .error (.middlewareNotFound m)) ∧
    ((mwFlag = [] ∨ ∀ n ∈ splitComma mwFlag, (middlewareReg.lookup n).isSome = true) →
        hFlag ≠ [] → handlerReg.lookup hFlag = none →
        getHandler middlewareReg handlerReg okH dumpReq mwFlag hFlag =
          .error (.handlerNotFound hFlag)) := by
  constructor
  · intro m hne hf
    unfold getHandler
    rw [if_neg hne, resolveMiddlewares_missing middlewareReg _ m hf]
  · intro hmw hne hl
    unfold getHandler
    have hok : ∃ ms, (if mwFlag = [] then Except.ok [dumpReq]
        else resolveMiddlewares middlewareReg (splitComma mwFlag)) = Except.ok ms := by
      by_cases h0 : mwFlag = []
      · exact ⟨[dumpReq], by rw [if_pos h0]⟩
      · rcases hmw with h1 | hall
        · exact absurd h1 h0
        · obtain ⟨ms, hms⟩ := resolveMiddlewares_ok middlewareReg _ hall
          exact ⟨ms, by rw [if_neg h0]; exact hms⟩
    obtain ⟨ms, hms⟩ := hok
    rw [hms, if_neg hne, hl]

/-- Witness for C8: a concrete run with registries over `Nat` handlers. -/
theorem c8_witness :
    getHandler ([("log".toList, id)] : List (List Char × (Nat → Nat)))
        [("ok".toList, 1)] 1 id ("log,bogus".toList) ("ok".toList) =
      .error (.middlewareNotFound "bogus".toList) ∧
    getHandler ([("log".toList, id)] : List (List Char × (Nat → Nat)))
        [("ok".toList, 1)] 1 id ("log".toList) ("nope".toList) =
      .error (.handlerNotFound "nope".toList) := by
  constructor
  · exact (c8_unknown_names_fail _ _ _ _ _ _).1 ("bogus".toList) (by decide) (by decide)
  · exact (c8_unknown_names_fail _ _ _ _ _ _).2 (Or.inr (by decide)) (by decide) (by decide)

/-!
Symbolic execution of the reading primitives over rendered text, for claims C4
and C5.
-/

theorem not_skip_of_naked {b : Nat} (h : isNakedByte b = true) : isSkipByte b = false := by
  simp [isNakedByte, isGoSpaceByte, isSkipByte] at h ⊢
  omega

theorem not_naked_of_skip {b : Nat} (h : isSkipByte b = true) : isNakedByte b = false := by
  simp [isNakedByte, isGoSpaceByte, isSkipByte] at h ⊢
  omega

theorem skipSpace_append : ∀ (ws rest : List Nat) (pos : Nat), spRun ws = true →
    headNotSkip rest = true → skipSpace (ws ++ rest) pos = (rest, pos + ws.length) := by
  intro ws
  induction ws with
  | nil =>
    intro rest pos _ hrest
    cases rest with
    | nil => simp [skipSpace]
    | cons c t =>
      have hc : isSkipByte c = false := by simpa [headNotSkip] using hrest
      simp [skipSpace, hc]
  | cons c t ih =>
    intro rest pos hws hrest
    have hc : isSkipByte c = true := by
      have := (List.all_eq_true.mp hws) c (List.mem_cons_self c t)
      exact this
    have hws2 : spRun t = true := by
      refine List.all_eq_true.mpr ?_
      intro x hx
      exact (List.all_eq_true.mp hws) x (List.mem_cons_of_mem c hx)
    rw [List.cons_append, skipSpace, if_pos hc, ih rest (pos + 1) hws2 hrest]
    simp only [List.length_cons, Prod.mk.injEq]
    exact ⟨trivial, by omega⟩

theorem readNakedString_append : ∀ (w rest : List Nat) (pos : Nat),
    (∀ b ∈ w, isNakedByte b = true) → stopsNaked rest = true →
    readNakedString (w ++ rest) pos = (w, rest, pos + w.length) := by
  intro w
  induction w with
  | nil =>
    intro rest pos _ hrest
    cases rest with
    | nil => simp [readNakedString]
    | cons c t =>
      have hc : isNakedByte c = false := by simpa [stopsNaked] using hrest
      simp [readNakedString, hc]
  | cons c t ih =>
    intro rest pos hw hrest
    have hc : isNakedByte c = true := hw c (List.mem_cons_self c t)
    rw [List.cons_append, readNakedString, if_pos hc,
      ih rest (pos + 1) (fun b hb => hw b (List.mem_cons_of_mem c hb)) hrest]
    dsimp only
    simp only [List.length_cons, Prod.mk.injEq]
    exact ⟨trivial, trivial, by omega⟩

theorem quotedScan_append : ∀ (c rest : List Nat) (pos : Nat), (∀ b ∈ c, ¬b = 34) →
    quotedScan (c ++ 34 :: rest) pos = .ok (c, rest, pos + c.length + 1) := by
  intro c
  induction c with
  | nil => intro rest pos _; simp [quotedScan]
  | cons x t ih =>
    intro rest pos hc
    have hx : ¬x = 34 := hc x (List.mem_cons_self x t)
    rw [List.cons_append, quotedScan, if_neg hx,
      ih rest (pos + 1) (fun b hb => hc b (List.mem_cons_of_mem x hb))]
    dsimp only
    simp only [List.length_cons, Except.ok.injEq, Prod.mk.injEq]
    exact ⟨trivial, trivial, by omega⟩

theorem consume_cons (e : Nat) (rest : List Nat) (pos : Nat) :
    consume e (e :: rest) pos = .ok (rest, pos + 1) := by
  simp [consume]

theorem readWord_render : ∀ (W : ConfigWord) (rest : List Nat) (pos : Nat),
    wordOK W = true → stopsNaked rest = true →
    readWord (W.render ++ rest) pos = .ok (W.val, rest, pos + W.render.length) := by
  intro W rest pos hW hrest
  cases W with
  | bare w =>
    rw [wordOK] at hW
    simp only [Bool.and_eq_true, Bool.not_eq_true'] at hW
    obtain ⟨⟨hne, hall⟩, hhead⟩ := hW
    cases w with
    | nil => simp at hne
    | cons c t =>
      have hc34 : ¬c = 34 := by simpa using hhead
      have hnaked : ∀ b ∈ c :: t, isNakedByte b = true := List.all_eq_true.mp hall
      show readWord ((c :: t) ++ rest) pos = _
      rw [List.cons_append, readWord]
      simp only [List.head?_cons]
      rw [if_neg hc34, ← List.cons_append,
        readNakedString_append (c :: t) rest pos hnaked hrest]
      simp [ConfigWord.val, ConfigWord.render]
  | quoted ctn =>
    have hc : ∀ b ∈ ctn, ¬b = 34 := by simpa [wordOK] using hW
    have hrw : (ConfigWord.quoted ctn).render ++ rest = 34 :: (ctn ++ 34 :: rest) := by
      simp [ConfigWord.render]
    rw [hrw, readWord]
    simp only [List.head?_cons, if_true]
    unfold readQuotedString
    rw [consume_cons]
    dsimp only
    rw [quotedScan_append ctn rest (pos + 1) hc]
    simp only [ConfigWord.val, ConfigWord.render, Except.ok.injEq, Prod.mk.injEq,
      List.length_cons, List.length_append, List.length_nil]
    exact ⟨trivial, trivial, by omega⟩

/-!
One parse loop iteration on a rendered path declaration, possibly preceded by
whitespace: the current path is reassigned and the table is untouched.
-/

theorem parseIter_path (f : Nat) (lead w rest : List Nat) (pos : Nat) (tbl : Table)
    (cur : List Nat) (hlead : spRun lead = true) (hw : pathWordOK w = true) :
    parseIter f (lead ++ (w ++ 58 :: rest)) pos tbl cur =
      some (.ok (.more rest (pos + lead.length + w.length + 1) tbl w)) := by
  rw [pathWordOK] at hw
  simp only [Bool.and_eq_true, beq_iff_eq] at hw
  obtain ⟨hhead, hall⟩ := hw
  obtain ⟨w2, rfl⟩ : ∃ w2, w = 47 :: w2 := by
    cases w with
    | nil => simp at hhead
    | cons a t =>
      simp only [List.head?_cons, Option.some.injEq] at hhead
      exact ⟨t, by rw [hhead]⟩
  have hstop : stopsNaked (58 :: rest) = true := by
    simp only [stopsNaked, List.head?_cons]
    decide
  have hWOK : wordOK (ConfigWord.bare (47 :: w2)) = true := by
    simp only [wordOK, Bool.and_eq_true, Bool.not_eq_true']
    refine ⟨⟨by simp, hall⟩, by simp⟩
  have hread := readWord_render (ConfigWord.bare (47 :: w2)) (58 :: rest)
    (pos + lead.length) hWOK hstop
  simp only [ConfigWord.render, ConfigWord.val, List.cons_append] at hread
  have hns : headNotSkip ((47 :: w2) ++ 58 :: rest) = true := by
    simp only [List.cons_append, headNotSkip, List.head?_cons]
    decide
  unfold parseIter
  rw [skipSpace_append lead _ pos hlead hns]
  dsimp only
  simp only [List.cons_append, List.head?_cons]
  rw [hread]
  dsimp only
  simp only [List.head?_cons, if_true]
  rw [consume_cons]

/-- C5: parsing starts with current path "/" (`Parse` enters the loop with the
one-byte path 47 and the empty table); whenever the next word of the input is
a path word (leading `'/'`, naked bytes) immediately followed by `':'`, one
loop iteration reassigns the current path to that word for the remaining
input, leaving the table unchanged; in particular Parse "/api:static" yields
exactly the table mapping "/api" to the single step "static" with no
settings. -/
theorem c5_path_declarations_reassign :
    (∀ (fuel : Nat) (input : List Nat), Parse fuel input = parseLoop fuel input 0 [] [47]) ∧
    (∀ (fuel : Nat) (lead w rest : List Nat) (pos : Nat) (tbl : Table) (cur : List Nat),
        spRun lead = true → pathWordOK w = true →
        parseLoop (fuel + 1) (lead ++ (w ++ 58 :: rest)) pos tbl cur =
          parseLoop fuel rest (pos + lead.length + w.length + 1) tbl w) ∧
    ParseOutcome (strBytes "/api:static")
      (.ok [(strBytes "/api", [⟨strBytes "static", none⟩])]) := by
  refine ⟨fun _ _ => rfl, ?_, ParseOutcome_of 20 (by decide)⟩
  intro fuel lead w rest pos tbl cur hlead hw
  rw [parseLoop, parseIter_path fuel lead w rest pos tbl cur hlead hw]

/-- Witness for C5: the reassignment step applied to " /z:s". -/
theorem c5_witness :
    parseLoop 1 ([32] ++ (strBytes "/z" ++ 58 :: strBytes "s")) 0 [] (strBytes "/") =
      parseLoop 0 (strBytes "s") (0 + ([32] : List Nat).length + (strBytes "/z").length + 1)
        [] (strBytes "/z") :=
  c5_path_declarations_reassign.2.1 0 [32] (strBytes "/z") (strBytes "s") 0 [] (strBytes "/")
    (by decide) (by decide)

/-!
Settings blocks of rendered configurations parse to the declared pair maps.
-/

theorem headNotSkip_append_left : ∀ (a b : List Nat), a ≠ [] → headNotSkip a = true →
    headNotSkip (a ++ b) = true := by
  intro a b ha h
  cases a with
  | nil => exact absurd rfl ha
  | cons c t => simpa [headNotSkip] using h

theorem skipSpace_of_headNotSkip : ∀ (l : List Nat) (pos : Nat), headNotSkip l = true →
    skipSpace l pos = (l, pos) := by
  intro l pos h
  cases l with
  | nil => rfl
  | cons c t =>
    have hc : isSkipByte c = false := by simpa [headNotSkip] using h
    rw [skipSpace, hc]
    simp

theorem wordRender_ne_nil (W : ConfigWord) (h : wordOK W = true) : W.render ≠ [] := by
  cases W with
  | bare w =>
    cases w with
    | nil => simp [wordOK] at h
    | cons c t => simp [ConfigWord.render]
  | quoted c => simp [ConfigWord.render]

theorem wordRender_headNotSkip (W : ConfigWord) (h : wordOK W = true) :
    headNotSkip W.render = true := by
  cases W with
  | bare w =>
    cases w with
    | nil => simp [wordOK] at h
    | cons c t =>
      rw [wordOK] at h
      simp only [Bool.and_eq_true] at h
      have hc : isNakedByte c = true :=
        (List.all_eq_true.mp h.1.2) c (List.mem_cons_self c t)
      simp [ConfigWord.render, headNotSkip, not_skip_of_naked hc]
  | quoted c =>
    simp only [ConfigWord.render, headNotSkip, List.head?_cons]
    decide

theorem settingsIter_render_last (p : ConfigWord × ConfigWord) (rest : List Nat) (pos : Nat)
    (acc : SettingsMap) (hp : pairOK p = true) :
    settingsIter (renderPair p ++ 125 :: rest) pos acc =
      .ok (.done (upsert acc p.1.val p.2.val) rest (pos + (renderPair p).length + 1)) := by
  obtain ⟨k, v⟩ := p
  rw [pairOK] at hp
  simp only [Bool.and_eq_true] at hp
  obtain ⟨hk, hv⟩ := hp
  have hshape : renderPair (k, v) ++ 125 :: rest =
      k.render ++ (58 :: 32 :: (v.render ++ 125 :: rest)) := by
    simp [renderPair]
  rw [hshape]
  unfold settingsIter
  have hstopk : stopsNaked (58 :: 32 :: (v.render ++ 125 :: rest)) = true := by
    simp only [stopsNaked, List.head?_cons]
    decide
  rw [readWord_render k _ pos hk hstopk]
  dsimp only
  rw [consume_cons]
  dsimp only
  have hsk : skipSpace (32 :: (v.render ++ 125 :: rest)) (pos + k.render.length + 1) =
      (v.render ++ 125 :: rest, pos + k.render.length + 1 + 1) := by
    have h32 : isSkipByte 32 = true := by decide
    rw [skipSpace, h32, skipSpace_of_headNotSkip _ _
      (headNotSkip_append_left v.render (125 :: rest) (wordRender_ne_nil v hv)
        (wordRender_headNotSkip v hv))]
    simp
  rw [hsk]
  dsimp only
  have hstopv : stopsNaked (125 :: rest) = true := by
    simp only [stopsNaked, List.head?_cons]
    decide
  rw [readWord_render v _ _ hv hstopv]
  dsimp only
  have hns125 : headNotSkip (125 :: rest) = true := by
    simp only [headNotSkip, List.head?_cons]
    decide
  rw [skipSpace_of_headNotSkip _ _ hns125]
  dsimp only
  simp [renderPair]
  try omega

theorem settingsIter_render_cons (p : ConfigWord × ConfigWord) (rest2 : List Nat) (pos : Nat)
    (acc : SettingsMap) (hp : pairOK p = true) (hns : headNotSkip rest2 = true) :
    settingsIter (renderPair p ++ 44 :: 32 :: rest2) pos acc =
      .ok (.more rest2 (pos + (renderPair p).length + 2) (upsert acc p.1.val p.2.val)) := by
  obtain ⟨k, v⟩ := p
  rw [pairOK] at hp
  simp only [Bool.and_eq_true] at hp
  obtain ⟨hk, hv⟩ := hp
  have hshape : renderPair (k, v) ++ 44 :: 32 :: rest2 =
      k.render ++ (58 :: 32 :: (v.render ++ 44 :: 32 :: rest2)) := by
    simp [renderPair]
  rw [hshape]
  unfold settingsIter
  have hstopk : stopsNaked (58 :: 32 :: (v.render ++ 44 :: 32 :: rest2)) = true := by
    simp only [stopsNaked, List.head?_cons]
    decide
  rw [readWord_render k _ pos hk hstopk]
  dsimp only
  rw [consume_cons]
  dsimp only
  have hsk : skipSpace (32 :: (v.render ++ 44 :: 32 :: rest2)) (pos + k.render.length + 1) =
      (v.render ++ 44 :: 32 :: rest2, pos + k.render.length + 1 + 1) := by
    have h32 : isSkipByte 32 = true := by decide
    rw [skipSpace, h32, skipSpace_of_headNotSkip _ _
      (headNotSkip_append_left v.render (44 :: 32 :: rest2) (wordRender_ne_nil v hv)
        (wordRender_headNotSkip v hv))]
    simp
  rw [hsk]
  dsimp only
  have hstopv : stopsNaked (44 :: 32 :: rest2) = true := by
    simp only [stopsNaked, List.head?_cons]
    decide
  rw [readWord_render v _ _ hv hstopv]
  dsimp only
  have hns44 : headNotSkip (44 :: 32 :: rest2) = true := by
    simp only [headNotSkip, List.head?_cons]
    decide
  rw [skipSpace_of_headNotSkip _ _ hns44]
  dsimp only
  have hsk2 : skipSpace (32 :: rest2) (pos + k.render.length + 1 + 1 + v.render.length + 1) =
      (rest2, pos + k.render.length + 1 + 1 + v.render.length + 1 + 1) := by
    have h32 : isSkipByte 32 = true := by decide
    rw [skipSpace, h32, skipSpace_of_headNotSkip _ _ hns]
    simp
  simp only [List.head?_cons, List.tail_cons]
  simp [hsk2, renderPair]
  try omega

theorem renderPairs_headNotSkip : ∀ (ps : List (ConfigWord × ConfigWord)) (X : List Nat),
    ps ≠ [] → ps.all pairOK = true → headNotSkip (renderPairs ps ++ X) = true := by
  intro ps X hne hall
  cases ps with
  | nil => exact absurd rfl hne
  | cons p t =>
    have hp : pairOK p = true := (List.all_eq_true.mp hall) p (List.mem_cons_self p t)
    have hk : wordOK p.1 = true := by
      rw [pairOK] at hp
      simp only [Bool.and_eq_true] at hp
      exact hp.1
    cases t with
    | nil =>
      have hshape : renderPairs [p] ++ X = p.1.render ++ (58 :: 32 :: (p.2.render ++ X)) := by
        simp [renderPairs, renderPair]
      rw [hshape]
      exact headNotSkip_append_left _ _ (wordRender_ne_nil p.1 hk)
        (wordRender_headNotSkip p.1 hk)
    | cons p2 t2 =>
      have hshape : renderPairs (p :: p2 :: t2) ++ X =
          p.1.render ++ (58 :: 32 :: (p.2.render ++ 44 :: 32 :: renderPairs (p2 :: t2) ++ X)) := by
        simp [renderPairs, renderPair]
      rw [hshape]
      exact headNotSkip_append_left _ _ (wordRender_ne_nil p.1 hk)
        (wordRender_headNotSkip p.1 hk)

theorem settingsLoop_render : ∀ (ps : List (ConfigWord × ConfigWord)) (fuel : Nat)
    (rest : List Nat) (pos : Nat) (acc : SettingsMap), ps ≠ [] → ps.all pairOK = true →
    ps.length ≤ fuel →
    settingsLoop fuel (renderPairs ps ++ 125 :: rest) pos acc =
      some (.ok (ps.foldl (fun a q => upsert a q.1.val q.2.val) acc, rest,
        pos + (renderPairs ps).length + 1)) := by
  intro ps
  induction ps with
  | nil => intro fuel rest pos acc hne _ _; exact absurd rfl hne
  | cons p t ih =>
    intro fuel rest pos acc _ hall hf
    have hf1 : 1 ≤ fuel := by
      simp only [List.length_cons] at hf
      omega
    obtain ⟨f, rfl⟩ : ∃ f, fuel = f + 1 := ⟨fuel - 1, by omega⟩
    have hp : pairOK p = true := (List.all_eq_true.mp hall) p (List.mem_cons_self p t)
    cases t with
    | nil =>
      rw [settingsLoop]
      have hshape : renderPairs [p] = renderPair p := rfl
      rw [hshape, settingsIter_render_last p rest pos acc hp]
      rfl
    | cons p2 t2 =>
      rw [settingsLoop]
      have hallt : (p2 :: t2).all pairOK = true := by
        refine List.all_eq_true.mpr ?_
        intro x hx
        exact (List.all_eq_true.mp hall) x (List.mem_cons_of_mem p hx)
      have hns : headNotSkip (renderPairs (p2 :: t2) ++ 125 :: rest) = true :=
        renderPairs_headNotSkip (p2 :: t2) (125 :: rest) (by simp) hallt
      have hshape : renderPairs (p :: p2 :: t2) ++ 125 :: rest =
          renderPair p ++ 44 :: 32 :: (renderPairs (p2 :: t2) ++ 125 :: rest) := by
        simp [renderPairs]
      rw [hshape, settingsIter_render_cons p _ pos acc hp hns]
      dsimp only
      have hft : (p2 :: t2).length ≤ f := by
        simp only [List.length_cons] at hf ⊢
        omega
      rw [ih f rest _ (upsert acc p.1.val p.2.val) (by simp) hallt hft]
      simp [renderPairs]
      try omega

theorem parseSettings_render (ps : List (ConfigWord × ConfigWord)) (fuel : Nat)
    (rest : List Nat) (pos : Nat) (hne : ps ≠ []) (hall : ps.all pairOK = true)
    (hf : ps.length ≤ fuel) :
    parseSettings fuel (123 :: (renderPairs ps ++ 125 :: rest)) pos =
      some (.ok (ps.foldl (fun a q => upsert a q.1.val q.2.val) [], rest,
        pos + (renderPairs ps).length + 2)) := by
  unfold parseSettings
  rw [consume_cons]
  dsimp only
  rw [skipSpace_of_headNotSkip _ _ (renderPairs_headNotSkip ps (125 :: rest) hne hall)]
  dsimp only
  rw [settingsLoop_render ps fuel rest (pos + 1) [] hne hall hf]
  simp only [Option.some.injEq, Except.ok.injEq, Prod.mk.injEq]
  refine ⟨trivial, trivial, by omega⟩

/-!
One parse loop iteration on each kind of rendered item.
-/

theorem parseIter_ws (f : Nat) (ws : List Nat) (pos : Nat) (tbl : Table) (cur : List Nat)
    (hws : spRun ws = true) : parseIter f ws pos tbl cur = some (.ok (.done tbl)) := by
  unfold parseIter
  have h := skipSpace_append ws [] pos hws rfl
  rw [List.append_nil] at h
  rw [h]
  rfl

theorem parseIter_step_plain (f : Nat) (n : ConfigWord) (lead ws rest : List Nat)
    (pos : Nat) (tbl : Table) (cur : List Nat) (hn : stepNameOK n = true)
    (hlead : spRun lead = true) (hws : spRun ws = true) (hsep : ws = [] → rest = []) :
    parseIter f (lead ++ (n.render ++ (ws ++ rest))) pos tbl cur =
      match (ws ++ rest).head? with
      | none => some (.ok (.done (update tbl cur ⟨n.val, none⟩)))
      | some _ => some (.ok (.more (ws ++ rest) (pos + lead.length + n.render.length)
          (update tbl cur ⟨n.val, none⟩) cur)) := by
  have hwOK : wordOK n = true := by
    rw [stepNameOK] at hn
    simp only [Bool.and_eq_true] at hn
    exact hn.1
  have hnot47 : ¬(n.val.head? = some 47) := by
    rw [stepNameOK] at hn
    simp only [Bool.and_eq_true, Bool.not_eq_true'] at hn
    simpa using hn.2
  have hstop : stopsNaked (ws ++ rest) = true := by
    cases ws with
    | nil => rw [hsep rfl]; rfl
    | cons c t =>
      have hc : isSkipByte c = true := (List.all_eq_true.mp hws) c (List.mem_cons_self c t)
      simp only [List.cons_append, stopsNaked, List.head?_cons]
      rw [not_naked_of_skip hc]
      rfl
  obtain ⟨c0, t0, hrender⟩ : ∃ c0 t0, n.render = c0 :: t0 := by
    cases hcr : n.render with
    | nil => exact absurd hcr (wordRender_ne_nil n hwOK)
    | cons a b => exact ⟨a, b, rfl⟩
  unfold parseIter
  rw [skipSpace_append lead _ pos hlead (headNotSkip_append_left n.render _
    (wordRender_ne_nil n hwOK) (wordRender_headNotSkip n hwOK))]
  dsimp only
  have hh : (n.render ++ (ws ++ rest)).head? = some c0 := by
    rw [hrender]
    rfl
  rw [hh]
  dsimp only
  rw [readWord_render n (ws ++ rest) _ hwOK hstop]
  dsimp only
  rw [if_neg hnot47]
  have hb : ¬((ws ++ rest).head? = some 123) := by
    cases ws with
    | nil =>
      rw [hsep rfl]
      simp
    | cons c t =>
      have hc : isSkipByte c = true := (List.all_eq_true.mp hws) c (List.mem_cons_self c t)
      simp only [List.cons_append, List.head?_cons, Option.some.injEq]
      intro hceq
      rw [hceq] at hc
      exact absurd hc (by decide)
  rw [if_neg hb]

theorem parseIter_step_settings (f : Nat) (n : ConfigWord)
    (ps : List (ConfigWord × ConfigWord)) (lead rest : List Nat) (pos : Nat) (tbl : Table)
    (cur : List Nat) (hn : stepNameOK n = true) (hne : ps ≠ []) (hall : ps.all pairOK = true)
    (hf : ps.length ≤ f) (hlead : spRun lead = true) :
    parseIter f (lead ++ (n.render ++ 123 :: (renderPairs ps ++ 125 :: rest))) pos tbl cur =
      some (.ok (.more rest
        (pos + lead.length + n.render.length + (renderPairs ps).length + 2)
        (update tbl cur ⟨n.val, some (ps.foldl (fun a q => upsert a q.1.val q.2.val) [])⟩)
        cur)) := by
  have hwOK : wordOK n = true := by
    rw [stepNameOK] at hn
    simp only [Bool.and_eq_true] at hn
    exact hn.1
  have hnot47 : ¬(n.val.head? = some 47) := by
    rw [stepNameOK] at hn
    simp only [Bool.and_eq_true, Bool.not_eq_true'] at hn
    simpa using hn.2
  have hstop : stopsNaked (123 :: (renderPairs ps ++ 125 :: rest)) = true := by
    simp only [stopsNaked, List.head?_cons]
    decide
  obtain ⟨c0, t0, hrender⟩ : ∃ c0 t0, n.render = c0 :: t0 := by
    cases hcr : n.render with
    | nil => exact absurd hcr (wordRender_ne_nil n hwOK)
    | cons a b => exact ⟨a, b, rfl⟩
  unfold parseIter
  rw [skipSpace_append lead _ pos hlead (headNotSkip_append_left n.render _
    (wordRender_ne_nil n hwOK) (wordRender_headNotSkip n hwOK))]
  dsimp only
  have hh : (n.render ++ 123 :: (renderPairs ps ++ 125 :: rest)).head? = some c0 := by
    rw [hrender]
    rfl
  rw [hh]
  dsimp only
  rw [readWord_render n _ _ hwOK hstop]
  dsimp only
  rw [if_neg hnot47]
  have hb : (123 :: (renderPairs ps ++ 125 :: rest)).head? = some 123 := rfl
  rw [if_pos hb]
  rw [parseSettings_render ps f rest _ hne hall hf]

theorem parseCost_pos : ∀ l : List (ConfigItem × List Nat), 1 ≤ parseCost l := by
  intro l
  cases l with
  | nil => simp [parseCost]
  | cons x t =>
    obtain ⟨i, ws⟩ := x
    cases i with
    | path w =>
      simp only [parseCost]
      omega
    | step n s =>
      cases s with
      | none =>
        simp only [parseCost]
        omega
      | some ps =>
        simp only [parseCost]
        omega

theorem renderItem_ne_nil (i : ConfigItem) (h : itemOK i = true) : renderItem i ≠ [] := by
  cases i with
  | path w =>
    simp only [itemOK, pathWordOK, Bool.and_eq_true, beq_iff_eq] at h
    cases w with
    | nil => simp at h
    | cons a t => simp [renderItem]
  | step n s =>
    have hw : wordOK n = true := by
      simp only [itemOK, stepNameOK, Bool.and_eq_true] at h
      exact h.1.1
    have hr := wordRender_ne_nil n hw
    cases s with
    | none => simpa [renderItem] using hr
    | some ps => simp [renderItem]

theorem renderConfig_eq_nil : ∀ l : List (ConfigItem × List Nat), configOK l = true →
    renderConfig l = [] → l = [] := by
  intro l hok hnil
  cases l with
  | nil => rfl
  | cons x t =>
    obtain ⟨i, ws⟩ := x
    rw [renderConfig] at hnil
    simp only [List.append_eq_nil] at hnil
    have hi : itemOK i = true := by
      rw [configOK, Bool.and_eq_true, Bool.and_eq_true, Bool.and_eq_true] at hok
      exact hok.1.1.1
    exact absurd hnil.1.1 (renderItem_ne_nil i hi)

/-- The parse loop on any rendered configuration, preceded by any whitespace
run, returns exactly the table the configuration denotes. -/
theorem parseLoop_render : ∀ (l : List (ConfigItem × List Nat)) (fuel : Nat)
    (lead : List Nat) (pos : Nat) (tbl : Table) (cur : List Nat),
    configOK l = true → spRun lead = true → parseCost l ≤ fuel →
    parseLoop fuel (lead ++ renderConfig l) pos tbl cur = some (.ok (evalConfig l cur tbl)) := by
  intro l
  induction l with
  | nil =>
    intro fuel lead pos tbl cur _ hlead hf
    have hf1 : 1 ≤ fuel := by simpa [parseCost] using hf
    obtain ⟨f, rfl⟩ : ∃ f, fuel = f + 1 := ⟨fuel - 1, by omega⟩
    rw [parseLoop]
    rw [show renderConfig [] = [] from rfl, List.append_nil]
    rw [parseIter_ws f lead pos tbl cur hlead]
    rfl
  | cons x t ih =>
    obtain ⟨i, ws⟩ := x
    intro fuel lead pos tbl cur hok hlead hf
    rw [configOK, Bool.and_eq_true, Bool.and_eq_true, Bool.and_eq_true] at hok
    have hitem := hok.1.1.1
    have hws := hok.1.1.2
    have hsepb := hok.1.2
    have hokt := hok.2
    have hf1 : 1 ≤ fuel := le_trans (parseCost_pos _) hf
    obtain ⟨f, rfl⟩ : ∃ f, fuel = f + 1 := ⟨fuel - 1, by omega⟩
    rw [parseLoop]
    simp only [renderConfig]
    cases i with
    | path w =>
      have hshape : renderItem (ConfigItem.path w) ++ ws ++ renderConfig t =
          w ++ 58 :: (ws ++ renderConfig t) := by simp [renderItem]
      have hpw : pathWordOK w = true := by
        rw [itemOK] at hitem
        exact hitem
      rw [hshape, parseIter_path f lead w (ws ++ renderConfig t) pos tbl cur hlead hpw]
      dsimp only
      have hft : parseCost t ≤ f := by
        have hceq : parseCost ((ConfigItem.path w, ws) :: t) = 1 + parseCost t := by
          simp [parseCost]
        omega
      rw [ih f ws _ tbl w hokt hws hft]
      rfl
    | step n s =>
      cases s with
      | none =>
        have hsn : stepNameOK n = true := by
          rw [itemOK] at hitem
          rw [Bool.and_eq_true] at hitem
          exact hitem.1
        have hshape : renderItem (ConfigItem.step n none) ++ ws ++ renderConfig t =
            n.render ++ (ws ++ renderConfig t) := by simp [renderItem]
        have hsep : ws = [] → renderConfig t = [] := by
          intro hws0
          subst hws0
          cases t with
          | nil => rfl
          | cons y t2 => simp [needSep] at hsepb
        rw [hshape, parseIter_step_plain f n lead ws (renderConfig t) pos tbl cur hsn
          hlead hws hsep]
        have hft : parseCost t ≤ f := by
          have hceq : parseCost ((ConfigItem.step n none, ws) :: t) = 1 + parseCost t := by
            simp [parseCost]
          omega
        cases hh : (ws ++ renderConfig t).head? with
        | none =>
          have hnil : ws ++ renderConfig t = [] := by
            cases hcase : ws ++ renderConfig t with
            | nil => rfl
            | cons a b => rw [hcase] at hh; simp at hh
          simp only [List.append_eq_nil] at hnil
          have ht : t = [] := renderConfig_eq_nil t hokt hnil.2
          subst ht
          rfl
        | some c =>
          dsimp only
          rw [ih f ws _ (update tbl cur ⟨n.val, none⟩) cur hokt hws hft]
          rfl
      | some ps =>
        rw [itemOK] at hitem
        try dsimp only at hitem
        rw [Bool.and_eq_true, Bool.and_eq_true] at hitem
        have hsn : stepNameOK n = true := hitem.1
        have hne : ps ≠ [] := by
          intro h0
          subst h0
          simp at hitem
        have hall : ps.all pairOK = true := hitem.2.2
        have hceq : parseCost ((ConfigItem.step n (some ps), ws) :: t) =
            1 + ps.length + parseCost t := by
          simp [parseCost]
        have hfps : ps.length ≤ f := by omega
        have hft : parseCost t ≤ f := by omega
        have hshape : renderItem (ConfigItem.step n (some ps)) ++ ws ++ renderConfig t =
            n.render ++ 123 :: (renderPairs ps ++ 125 :: (ws ++ renderConfig t)) := by
          simp [renderItem]
        rw [hshape, parseIter_step_settings f n ps lead (ws ++ renderConfig t) pos tbl cur
          hsn hne hall hfps hlead]
        dsimp only
        rw [ih f ws _ (update tbl cur ⟨n.val,
          some (ps.foldl (fun a q => upsert a q.1.val q.2.val) [])⟩) cur hokt hws hft]
        rfl

/-- C4 (amended): for every configuration rendered from the grammar of §4.1
with whitespace runs (space, tab, newline) only in the positions the parser
skips — before and after items (mandatory after a settings-less step that is
not last), with no whitespace between a path and its `':'`, a step word and
its `'{'`, or a settings key and its `':'`, settings written as
`{k: v, k: v}` — and in which bare words do not begin with `'"'` and step
words do not begin with `'/'`, Parse succeeds and returns, for each declared
path, exactly the declared steps with their settings, in declaration order. -/
theorem c4_canonical_round_trip (l : List (ConfigItem × List Nat)) (lead : List Nat)
    (hok : configOK l = true) (hlead : spRun lead = true) :
    ParseOutcome (lead ++ renderConfig l) (.ok (evalConfig l [47] [])) :=
  ⟨parseCost l, fun fuel hf => parseLoop_render l fuel lead 0 [] [47] hok hlead hf⟩

/-- Witness for C4 (amended): the configuration "/a: x" built from a path item
and a bare step. -/
theorem c4_canonical_round_trip_witness :
    ParseOutcome (strBytes "/a: x")
      (.ok [(strBytes "/a", [{ Name := strBytes "x", Settings := none }])]) := by
  have h := c4_canonical_round_trip
    [(ConfigItem.path (strBytes "/a"), [32]),
     (ConfigItem.step (ConfigWord.bare (strBytes "x")) none, [])] []
    (by decide) (by decide)
  have hA : ([] : List Nat) ++ renderConfig
      [(ConfigItem.path (strBytes "/a"), [32]),
       (ConfigItem.step (ConfigWord.bare (strBytes "x")) none, [])] = strBytes "/a: x" := by
    decide
  have hB : evalConfig
      [(ConfigItem.path (strBytes "/a"), [32]),
       (ConfigItem.step (ConfigWord.bare (strBytes "x")) none, [])] [47] [] =
      [(strBytes "/a", [{ Name := strBytes "x", Settings := none }])] := by
    decide
  rw [← hA, ← hB]
  exact h

/-- C4 (counterexample): the claim as stated is false.  The string
"x{foo : bar}" is generated by the grammar of §4.1 under the claim's reading
that any whitespace run between two tokens outside quoted strings is
insignificant (here: a space between the settings key "foo" and its ':'),
yet Parse rejects it with a syntax error (unexpected ' ' at offset 6,
expected ':'), instead of returning the declared routing table. -/
theorem c4_whitespace_counterexample :
    SpecConfig (strBytes "x\x7bfoo : bar\x7d") ∧
    ParseOutcome (strBytes "x\x7bfoo : bar\x7d") (.error (.unexpectedExpected 32 6 58)) := by
  constructor
  · have hx : SpecWord (strBytes "x") := SpecWord.bare _ (by decide) (by decide)
    have hfoo : SpecWord (strBytes "foo") := SpecWord.bare _ (by decide) (by decide)
    have hbar : SpecWord (strBytes "bar") := SpecWord.bare _ (by decide) (by decide)
    have hpair : SpecPair (strBytes "foo : bar") := by
      have h := SpecPair.mk (strBytes "foo") [32] [32] (strBytes "bar") hfoo
        (by decide) (by decide) hbar
      have hshape : strBytes "foo" ++ [32] ++ 58 :: ([32] ++ strBytes "bar") =
          strBytes "foo : bar" := by decide
      rw [hshape] at h
      exact h
    have hitem : SpecItem (strBytes "x\x7bfoo : bar\x7d") := by
      have h := SpecItem.stepSettings (strBytes "x") [] [] (strBytes "foo : bar") [] hx
        (by decide) (by decide) (SpecPairs.one _ hpair) (by decide)
      have hshape : strBytes "x" ++ [] ++ 123 :: ([] ++ strBytes "foo : bar" ++ [] ++ [125]) =
          strBytes "x\x7bfoo : bar\x7d" := by decide
      rw [hshape] at h
      exact h
    have h := SpecConfig.cons (strBytes "x\x7bfoo : bar\x7d") [] [] hitem (by decide) SpecConfig.nil
    have hshape : strBytes "x\x7bfoo : bar\x7d" ++ [] ++ [] = strBytes "x\x7bfoo : bar\x7d" := by simp
    rw [hshape] at h
    exact h
  · exact ParseOutcome_of 20 (by decide)
